import Mathlib

/-!
Verification of the core translation algorithm of cnf2lightswitch.py
(DIMACS CNF to a lights-and-switches circuit rendering).

The embedding mirrors the Python source:
- `dimacs2index` is the literal indexer.
- `link_literal_to_clause` models one wire print: the emitted TikZ edge
  carries the clause index, the variable index, the switch face the wire
  attaches to (east for positive literals, west for negative ones) and
  the bend side.  A failed Python assert is modelled by `none`.
- `handle_clause` folds over the parsed literals of one clause line,
  appending the clause index to the bucket `lit_to_clauses[dimacs2index l]`
  and collecting the emitted wires.
- `handle_solution_line` models one solution line: the satisfied-clause
  set, the per-literal switch directives and the per-clause light
  directives.  The beamer overlay marker only-at-slide-i that the source
  prints is modelled by `Overlay.onlyAt`; the persistent marker
  from-slide-i-onward, which the source never prints, by `Overlay.fromOn`.
- `wait_for_solution` models the stdin loop: layer ordinals start at 2
  and advance only on lines starting with the marker "v ".
- `buildAdjacency` models the main clause-reading loop starting at
  clause index 1 over the initial array of 2n+2 empty buckets.
Python list indexing raises on an out-of-range index; the embedding uses
a total `getD`/`set` semantics, and the range claims are proved under
the literal-range invariant of the data model, under which the total and
the raising semantics agree.
-/

inductive Side
  | left
  | right
  deriving DecidableEq

inductive Face
  | east
  | west
  deriving DecidableEq

structure Wire where
  clauseIdx : ℕ
  varIdx : ℕ
  face : Face
  side : Side
  deriving DecidableEq

inductive Overlay
  | onlyAt (i : ℕ)
  | fromOn (i : ℕ)
  deriving DecidableEq

inductive Directive
  | switchOn (v : ℕ) (o : Overlay)
  | switchOff (v : ℕ) (o : Overlay)
  | lightOn (c : ℕ) (o : Overlay)
  | lightOff (c : ℕ) (o : Overlay)
  deriving DecidableEq

/-- Overlay tag of a directive. -/
def overlayOf : Directive → Overlay
  | Directive.switchOn _ o => o
  | Directive.switchOff _ o => o
  | Directive.lightOn _ o => o
  | Directive.lightOff _ o => o

/-- Translate a DIMACS literal into a positive index (source: dimacs2index). -/
def dimacs2index (d : ℤ) : ℕ :=
  if d = 0 then 0
  else if d > 0 then (d * 2).toNat
  else (-d * 2 + 1).toNat

/-- Scale factor chosen in main from the header counts n and m. -/
def scale (n m : ℕ) : ℚ :=
  if n ≤ 5 ∧ m ≤ 5 then 1 else 5 / ((max n m : ℕ) : ℚ)

/-- One wire print (source: link_literal_to_clause).  The positive branch
attaches to the east face of switch l and bends right when l + 1 < i;
the negative branch carries an assert l < 0 (modelled by returning
`none` when neither branch applies), attaches to the west face of
switch -l and bends left when -l > i + 2. -/
def link_literal_to_clause (l : ℤ) (i : ℕ) : Option Wire :=
  if l > 0 then
    some ⟨i, l.toNat, Face.east, if l + 1 < (i : ℤ) then Side.right else Side.left⟩
  else if l < 0 then
    some ⟨i, (-l).toNat, Face.west, if (i : ℤ) + 2 < -l then Side.left else Side.right⟩
  else none

/-- One switch-state print inside handle_solution_line: switch on for a
positive literal, switch off for a negative one, with an assert l < 0 in
the negative branch modelled by `none`. -/
def switch_directive (l : ℤ) (i : ℕ) : Option Directive :=
  if l > 0 then some (Directive.switchOn l.toNat (Overlay.onlyAt i))
  else if l < 0 then some (Directive.switchOff (-l).toNat (Overlay.onlyAt i))
  else none

/-- Total lookup of one adjacency bucket (Python: lit_to_clauses[k]). -/
def bucket (a : List (List ℕ)) (k : ℕ) : List ℕ :=
  a.getD k []

/-- Append a clause index to one bucket (Python: lit_to_clauses[k].append(i)). -/
def updateBucket (a : List (List ℕ)) (k : ℕ) (i : ℕ) : List (List ℕ) :=
  a.set k (bucket a k ++ [i])

/-- Adjacency effect of one literal of a clause line. -/
def adjStep (i : ℕ) (a : List (List ℕ)) (l : ℤ) : List (List ℕ) :=
  if l = 0 then a else updateBucket a (dimacs2index l) i

/-- Process one clause line (source: handle_clause): for every nonzero
literal, append the clause index i to its bucket and emit a wire. -/
def handle_clause (clause : List ℤ) (i : ℕ) (lit_to_clauses : List (List ℕ)) :
    List (List ℕ) × List Wire :=
  clause.foldl
    (fun st l =>
      if l = 0 then st
      else (updateBucket st.1 (dimacs2index l) i,
            st.2 ++ (link_literal_to_clause l i).toList))
    (lit_to_clauses, [])

/-- Satisfied-clause set of one solution line (source: the
satisfied_clauses set updated across the literal loop of
handle_solution_line). -/
def satisfiedClauses (lit_to_clauses : List (List ℕ)) (lits : List ℤ) : Finset ℕ :=
  lits.foldl
    (fun s l => if l = 0 then s
      else s ∪ (bucket lit_to_clauses (dimacs2index l)).toFinset)
    ∅

/-- Directives printed for one solution line at layer i (source:
handle_solution_line): switch directives for the nonzero literals in
input order, then a light-on directive per satisfied clause, then a
light-off directive per clause of 1..m that is not satisfied.  Python
iterates the two sets in an unspecified order; the embedding fixes the
increasing order. -/
def handle_solution_line (m : ℕ) (lit_to_clauses : List (List ℕ))
    (lits : List ℤ) (i : ℕ) : List Directive :=
  (lits.filterMap (fun l => if l = 0 then none else switch_directive l i))
    ++ (Finset.sort (fun x y => x ≤ y) (satisfiedClauses lit_to_clauses lits)).map
        (fun c => Directive.lightOn c (Overlay.onlyAt i))
    ++ (Finset.sort (fun x y => x ≤ y)
          (Finset.Icc 1 m \ satisfiedClauses lit_to_clauses lits)).map
        (fun c => Directive.lightOff c (Overlay.onlyAt i))

/-- The initial adjacency array of main: 2n+2 empty buckets. -/
def lit_to_clauses_init (n : ℕ) : List (List ℕ) :=
  List.replicate (2 * n + 2) []

/-- The clause-reading loop of main, clause index starting at i. -/
def buildFrom : List (List ℕ) → ℕ → List (List ℤ) → List (List ℕ)
  | a, _, [] => a
  | a, i, c :: cs => buildFrom (handle_clause c i a).1 (i + 1) cs

/-- Adjacency after the whole clause-reading loop of main. -/
def buildAdjacency (n : ℕ) (clauses : List (List ℤ)) : List (List ℕ) :=
  buildFrom (lit_to_clauses_init n) 1 clauses

/-- One line of the assignment stream: its raw text, for the marker test
line.startswith of the source, and the literals parsed from the tokens
after the marker. -/
structure InputLine where
  text : String
  lits : List ℤ

/-- The stdin loop of wait_for_solution with explicit layer counter. -/
def wait_aux (m : ℕ) (a : List (List ℕ)) : ℕ → List InputLine → List (ℕ × List Directive)
  | _, [] => []
  | i, line :: rest =>
    if line.text.startsWith "v " then
      (i, handle_solution_line m a line.lits i) :: wait_aux m a (i + 1) rest
    else wait_aux m a i rest

/-- Source: wait_for_solution, with the layer counter starting at 2. -/
def wait_for_solution (m : ℕ) (a : List (List ℕ))
    (stdin : List InputLine) : List (ℕ × List Directive) :=
  wait_aux m a 2 stdin

/-- C3: the literal indexer maps 0 to 0, a positive literal l to 2l and a
negative literal l to 2|l| + 1; hence the index is even exactly for
positive literals, differs between a literal and its negation, and is
injective on nonzero literals. -/
theorem dimacs2index_spec :
    dimacs2index 0 = 0 ∧
    (∀ l : ℤ, 0 < l → (dimacs2index l : ℤ) = 2 * l) ∧
    (∀ l : ℤ, l < 0 → (dimacs2index l : ℤ) = 2 * |l| + 1) ∧
    (∀ l : ℤ, l ≠ 0 → (dimacs2index l % 2 = 0 ↔ 0 < l)) ∧
    (∀ l : ℤ, l ≠ 0 → dimacs2index l ≠ dimacs2index (-l)) ∧
    (∀ l₁ l₂ : ℤ, l₁ ≠ 0 → l₂ ≠ 0 →
      dimacs2index l₁ = dimacs2index l₂ → l₁ = l₂) := by
  refine ⟨rfl, ?_, ?_, ?_, ?_, ?_⟩
  · intro l hl
    simp only [dimacs2index]
    split_ifs <;> omega
  · intro l hl
    rw [abs_of_neg hl]
    simp only [dimacs2index]
    split_ifs <;> omega
  · intro l hl
    simp only [dimacs2index]
    split_ifs <;> omega
  · intro l hl
    simp only [dimacs2index]
    split_ifs <;> omega
  · intro l₁ l₂ h₁ h₂
    simp only [dimacs2index]
    split_ifs <;> omega

/-- C3 witness: the indexer evaluated at the literals 3 and -3. -/
theorem dimacs2index_spec_witness :
    (dimacs2index (-3) : ℤ) = 2 * |(-3 : ℤ)| + 1 ∧
    dimacs2index 3 ≠ dimacs2index (-3) :=
  ⟨dimacs2index_spec.2.2.1 (-3) (by decide),
   dimacs2index_spec.2.2.2.2.1 3 (by decide)⟩

/-- C9: the scale factor is 1 when n ≤ 5 and m ≤ 5 and 5 / max n m
otherwise; in particular scale 3 3 = 1 and scale 10 4 = 1/2. -/
theorem scale_selection :
    (∀ n m : ℕ, n ≤ 5 → m ≤ 5 → scale n m = 1) ∧
    (∀ n m : ℕ, ¬(n ≤ 5 ∧ m ≤ 5) → scale n m = 5 / ((max n m : ℕ) : ℚ)) ∧
    scale 3 3 = 1 ∧ scale 10 4 = 1 / 2 := by
  refine ⟨?_, ?_, ?_, ?_⟩
  · intro n m hn hm
    simp [scale, hn, hm]
  · intro n m h
    simp [scale, h]
  · simp [scale]
  · norm_num [scale]

/-- C9 witness: both branches of the scale selection at concrete counts. -/
theorem scale_selection_witness :
    scale 3 3 = 1 ∧ scale 10 4 = 5 / ((max 10 4 : ℕ) : ℚ) :=
  ⟨scale_selection.1 3 3 (by decide) (by decide),
   scale_selection.2.1 10 4 (by decide)⟩

/-- C8: a wire for a positive literal attaches to the east face and bends
right exactly when l + 1 < i; a wire for a negative literal attaches to
the west face and bends left exactly when |l| > i + 2. -/
theorem wire_side_spec (l : ℤ) (i : ℕ) (w : Wire)
    (h : link_literal_to_clause l i = some w) :
    (0 < l → w.face = Face.east ∧ (w.side = Side.right ↔ l + 1 < (i : ℤ))) ∧
    (l < 0 → w.face = Face.west ∧ (w.side = Side.left ↔ (i : ℤ) + 2 < -l)) := by
  simp only [link_literal_to_clause] at h
  constructor
  · intro hpos
    rw [if_pos hpos] at h
    cases h
    refine ⟨rfl, ?_⟩
    split_ifs with hb <;> simp [hb]
  · intro hneg
    rw [if_neg (show ¬l > 0 by omega), if_pos hneg] at h
    cases h
    refine ⟨rfl, ?_⟩
    split_ifs with hb <;> simp [hb]

/-- C8 witness: the wire for literal 1 of clause 3 bends right since
1 + 1 < 3. -/
theorem wire_side_spec_witness :
    Wire.face ⟨3, 1, Face.east, Side.right⟩ = Face.east ∧
    (Wire.side ⟨3, 1, Face.east, Side.right⟩ = Side.right ↔ (1 : ℤ) + 1 < ((3 : ℕ) : ℤ)) :=
  (wire_side_spec 1 3 ⟨3, 1, Face.east, Side.right⟩ (by decide)).1 (by decide)

/-- C10: under the literal-range invariant, the index of a nonzero
literal lies in the range 2..2n+1, hence within the adjacency array of
size 2n+2, and the negative-branch asserts of link_literal_to_clause
and handle_solution_line cannot fail (both branches return a value). -/
theorem index_bounds_and_asserts (n : ℕ) (l : ℤ) (i : ℕ)
    (hl : l ≠ 0) (hb : l.natAbs ≤ n) :
    2 ≤ dimacs2index l ∧ dimacs2index l ≤ 2 * n + 1 ∧
    dimacs2index l < (lit_to_clauses_init n).length ∧
    (link_literal_to_clause l i).isSome = true ∧
    (switch_directive l i).isSome = true := by
  have hlen : (lit_to_clauses_init n).length = 2 * n + 2 := by
    simp [lit_to_clauses_init]
  refine ⟨?_, ?_, ?_, ?_, ?_⟩
  · simp only [dimacs2index]
    split_ifs <;> omega
  · simp only [dimacs2index]
    split_ifs <;> omega
  · rw [hlen]
    simp only [dimacs2index]
    split_ifs <;> omega
  · simp only [link_literal_to_clause]
    split_ifs <;> simp_all
    omega
  · simp only [switch_directive]
    split_ifs <;> simp_all
    omega

/-- C10 witness: literal -2 with n = 3 at clause index 1. -/
theorem index_bounds_and_asserts_witness :
    2 ≤ dimacs2index (-2) ∧ dimacs2index (-2) ≤ 2 * 3 + 1 ∧
    dimacs2index (-2) < (lit_to_clauses_init 3).length ∧
    (link_literal_to_clause (-2) 1).isSome = true ∧
    (switch_directive (-2) 1).isSome = true :=
  index_bounds_and_asserts 3 (-2) 1 (by decide) (by decide)

lemma bucket_cons_succ (b : List ℕ) (a : List (List ℕ)) (k : ℕ) :
    bucket (b :: a) (k + 1) = bucket a k := by
  simp [bucket]

lemma bucket_set (a : List (List ℕ)) (k j : ℕ) (v : List ℕ) :
    bucket (a.set k v) j = if k = j ∧ k < a.length then v else bucket a j := by
  induction a generalizing k j with
  | nil => simp [bucket]
  | cons b a ih =>
    cases k with
    | zero =>
      cases j with
      | zero => simp [bucket]
      | succ j => simp [bucket]
    | succ k =>
      cases j with
      | zero => simp [bucket]
      | succ j =>
        rw [List.set_cons_succ, bucket_cons_succ, bucket_cons_succ, ih]
        have hc : (k = j ∧ k < a.length) ↔ (k + 1 = j + 1 ∧ k + 1 < (b :: a).length) := by
          simp
        rw [if_congr hc rfl rfl]

lemma mem_bucket_updateBucket (a : List (List ℕ)) (k j i x : ℕ) :
    x ∈ bucket (updateBucket a k i) j ↔
      x ∈ bucket a j ∨ (x = i ∧ k = j ∧ k < a.length) := by
  unfold updateBucket
  rw [bucket_set]
  split_ifs with h
  · obtain ⟨hk, hlen⟩ := h
    subst hk
    simp [hlen]
  · constructor
    · intro hx
      exact Or.inl hx
    · intro hx
      rcases hx with hx | ⟨_, hx2, hx3⟩
      · exact hx
      · exact absurd ⟨hx2, hx3⟩ h

lemma length_updateBucket (a : List (List ℕ)) (k i : ℕ) :
    (updateBucket a k i).length = a.length := by
  simp [updateBucket]

lemma length_adjStep (i : ℕ) (a : List (List ℕ)) (l : ℤ) :
    (adjStep i a l).length = a.length := by
  unfold adjStep
  split_ifs with h
  · rfl
  · exact length_updateBucket a (dimacs2index l) i

lemma handle_clause_fst (clause : List ℤ) (i : ℕ) (a : List (List ℕ)) :
    (handle_clause clause i a).1 = clause.foldl (adjStep i) a := by
  suffices h : ∀ st : List (List ℕ) × List Wire,
      (clause.foldl
        (fun st l =>
          if l = 0 then st
          else (updateBucket st.1 (dimacs2index l) i,
                st.2 ++ (link_literal_to_clause l i).toList)) st).1
        = clause.foldl (adjStep i) st.1 by
    exact h (a, [])
  induction clause with
  | nil => intro st; rfl
  | cons l cs ih =>
    intro st
    simp only [List.foldl_cons]
    by_cases hl : l = 0
    · rw [if_pos hl]
      have ha : adjStep i st.1 l = st.1 := by simp [adjStep, hl]
      rw [ha]
      exact ih st
    · rw [if_neg hl]
      have ha : adjStep i st.1 l = updateBucket st.1 (dimacs2index l) i := by
        simp [adjStep, hl]
      rw [ha]
      exact ih (updateBucket st.1 (dimacs2index l) i, st.2 ++ (link_literal_to_clause l i).toList)

lemma length_foldl_adjStep (c : List ℤ) (i : ℕ) (a : List (List ℕ)) :
    (c.foldl (adjStep i) a).length = a.length := by
  induction c generalizing a with
  | nil => rfl
  | cons l cs ih => rw [List.foldl_cons, ih, length_adjStep]

lemma mem_bucket_foldl_adjStep (c : List ℤ) (i : ℕ) (a : List (List ℕ)) (k x : ℕ) :
    x ∈ bucket (c.foldl (adjStep i) a) k ↔
      x ∈ bucket a k ∨
        (x = i ∧ k < a.length ∧ ∃ l, l ∈ c ∧ l ≠ 0 ∧ dimacs2index l = k) := by
  induction c generalizing a with
  | nil => simp
  | cons l cs ih =>
    rw [List.foldl_cons, ih, length_adjStep]
    by_cases hl : l = 0
    · have ha : adjStep i a l = a := by simp [adjStep, hl]
      rw [ha]
      constructor
      · rintro (hx | ⟨hx1, hx2, l', hl', hlz, hlk⟩)
        · exact Or.inl hx
        · exact Or.inr ⟨hx1, hx2, l', List.mem_cons_of_mem l hl', hlz, hlk⟩
      · rintro (hx | ⟨hx1, hx2, l', hl', hlz, hlk⟩)
        · exact Or.inl hx
        · rcases List.mem_cons.mp hl' with h | h
          · exact absurd (h ▸ hl) hlz
          · exact Or.inr ⟨hx1, hx2, l', h, hlz, hlk⟩
    · have ha : adjStep i a l = updateBucket a (dimacs2index l) i := by
        simp [adjStep, hl]
      rw [ha, mem_bucket_updateBucket]
      constructor
      · rintro ((hx | ⟨hx1, hx2, hx3⟩) | ⟨hx1, hx2, l', hl', hlz, hlk⟩)
        · exact Or.inl hx
        · exact Or.inr ⟨hx1, hx2 ▸ hx3, l, List.mem_cons_self l cs, hl, hx2⟩
        · exact Or.inr ⟨hx1, hx2, l', List.mem_cons_of_mem l hl', hlz, hlk⟩
      · rintro (hx | ⟨hx1, hx2, l', hl', hlz, hlk⟩)
        · exact Or.inl (Or.inl hx)
        · rcases List.mem_cons.mp hl' with h | h
          · subst h
            exact Or.inl (Or.inr ⟨hx1, hlk, hlk ▸ hx2⟩)
          · exact Or.inr ⟨hx1, hx2, l', h, hlz, hlk⟩

lemma length_handle_clause_fst (c : List ℤ) (i : ℕ) (a : List (List ℕ)) :
    ((handle_clause c i a).1).length = a.length := by
  rw [handle_clause_fst]
  exact length_foldl_adjStep c i a

lemma mem_bucket_buildFrom (cs : List (List ℤ)) (i : ℕ) (a : List (List ℕ)) (k x : ℕ) :
    x ∈ bucket (buildFrom a i cs) k ↔
      x ∈ bucket a k ∨
        ∃ j, j < cs.length ∧ x = i + j ∧ k < a.length ∧
          ∃ l, l ∈ cs.getD j [] ∧ l ≠ 0 ∧ dimacs2index l = k := by
  induction cs generalizing a i with
  | nil => simp [buildFrom]
  | cons c cs ih =>
    show x ∈ bucket (buildFrom (handle_clause c i a).1 (i + 1) cs) k ↔ _
    rw [ih, handle_clause_fst, mem_bucket_foldl_adjStep, length_foldl_adjStep]
    constructor
    · rintro ((hx | ⟨hx1, hx2, l', hl', hlz, hlk⟩) | ⟨j, hj, hx1, hx2, l', hl', hlz, hlk⟩)
      · exact Or.inl hx
      · exact Or.inr ⟨0, by simp, by omega, hx2, l', by simpa using hl', hlz, hlk⟩
      · exact Or.inr ⟨j + 1, by simpa using hj, by omega, hx2, l', by simpa using hl', hlz, hlk⟩
    · rintro (hx | ⟨j, hj, hx1, hx2, l', hl', hlz, hlk⟩)
      · exact Or.inl (Or.inl hx)
      · cases j with
        | zero =>
          exact Or.inl (Or.inr ⟨by omega, hx2, l', by simpa using hl', hlz, hlk⟩)
        | succ j =>
          refine Or.inr ⟨j, by simpa using hj, by omega, hx2, l', by simpa using hl', hlz, hlk⟩

lemma bucket_replicate (num k : ℕ) :
    bucket (List.replicate num ([] : List ℕ)) k = [] := by
  induction num generalizing k with
  | zero => cases k <;> rfl
  | succ n ih =>
    cases k with
    | zero => rfl
    | succ k => rw [List.replicate_succ, bucket_cons_succ]; exact ih k

lemma dimacs2index_lt (n : ℕ) (l : ℤ) (_hl : l ≠ 0) (hb : l.natAbs ≤ n) :
    dimacs2index l < 2 * n + 2 := by
  simp only [dimacs2index]
  split_ifs <;> omega

lemma dimacs2index_inj (l₁ l₂ : ℤ) (_h₁ : l₁ ≠ 0) (h₂ : l₂ ≠ 0)
    (h : dimacs2index l₁ = dimacs2index l₂) : l₁ = l₂ := by
  simp only [dimacs2index] at h
  split_ifs at h <;> omega

lemma mem_bucket_buildAdjacency (n : ℕ) (clauses : List (List ℤ)) (k x : ℕ) :
    x ∈ bucket (buildAdjacency n clauses) k ↔
      ∃ j, j < clauses.length ∧ x = 1 + j ∧ k < 2 * n + 2 ∧
        ∃ l, l ∈ clauses.getD j [] ∧ l ≠ 0 ∧ dimacs2index l = k := by
  unfold buildAdjacency
  rw [mem_bucket_buildFrom]
  simp [lit_to_clauses_init, bucket_replicate]

/-- C2: for a nonzero literal l within the variable range, the bucket of
index(l) after the clause loop holds exactly the 1-based indices of the
clauses that contain l with that exact polarity. -/
theorem adjacency_complete_sound (n : ℕ) (clauses : List (List ℤ)) (l : ℤ) (x : ℕ)
    (hl : l ≠ 0) (hb : l.natAbs ≤ n) :
    x ∈ bucket (buildAdjacency n clauses) (dimacs2index l) ↔
      ∃ j, j < clauses.length ∧ x = j + 1 ∧ l ∈ clauses.getD j [] := by
  rw [mem_bucket_buildAdjacency]
  constructor
  · rintro ⟨j, hj, hx, _, l', hl', hlz, hlk⟩
    have : l' = l := dimacs2index_inj l' l hlz hl hlk
    exact ⟨j, hj, by omega, this ▸ hl'⟩
  · rintro ⟨j, hj, hx, hmem⟩
    exact ⟨j, hj, by omega, dimacs2index_lt n l hl hb, l, hmem, hl, rfl⟩

/-- C2 witness: with n = 1 and the single clause containing literal 1,
clause index 1 is in the bucket of index(1). -/
theorem adjacency_complete_sound_witness :
    1 ∈ bucket (buildAdjacency 1 [[1]]) (dimacs2index 1) ↔
      ∃ j, j < ([[(1 : ℤ)]] : List (List ℤ)).length ∧ 1 = j + 1 ∧
        (1 : ℤ) ∈ ([[(1 : ℤ)]] : List (List ℤ)).getD j [] :=
  adjacency_complete_sound 1 [[1]] 1 1 (by decide) (by decide)

/-- C6: when the clause stream has exactly the m lines the header
declares, every clause index stored in any adjacency bucket lies in
1..m. -/
theorem clause_index_in_range (n m : ℕ) (clauses : List (List ℤ))
    (hm : clauses.length = m) (k x : ℕ)
    (hx : x ∈ bucket (buildAdjacency n clauses) k) :
    1 ≤ x ∧ x ≤ m := by
  rw [mem_bucket_buildAdjacency] at hx
  obtain ⟨j, hj, hx1, _, _⟩ := hx
  omega

/-- C6 witness: the stored clause index 1 of a one-clause formula lies in
1..1. -/
theorem clause_index_in_range_witness : 1 ≤ 1 ∧ 1 ≤ 1 :=
  clause_index_in_range 1 1 [[1]] rfl (dimacs2index 1) 1 (by decide)

lemma satisfiedClauses_foldl (a : List (List ℕ)) (lits : List ℤ) (s : Finset ℕ) :
    lits.foldl
      (fun s l => if l = 0 then s
        else s ∪ (bucket a (dimacs2index l)).toFinset) s =
      s ∪ (lits.toFinset.filter (fun l => ¬l = 0)).biUnion
            (fun l => (bucket a (dimacs2index l)).toFinset) := by
  induction lits generalizing s with
  | nil => simp
  | cons l lits ih =>
    rw [List.foldl_cons, ih]
    ext y
    by_cases hl : l = 0
    · subst hl
      rw [if_pos rfl]
      simp only [Finset.mem_union, Finset.mem_biUnion, Finset.mem_filter,
        List.mem_toFinset, List.mem_cons]
      constructor
      · rintro (hy | ⟨b, ⟨hb, hbz⟩, hy⟩)
        · exact Or.inl hy
        · exact Or.inr ⟨b, ⟨Or.inr hb, hbz⟩, hy⟩
      · rintro (hy | ⟨b, ⟨hb | hb, hbz⟩, hy⟩)
        · exact Or.inl hy
        · exact absurd hb hbz
        · exact Or.inr ⟨b, ⟨hb, hbz⟩, hy⟩
    · rw [if_neg hl]
      simp only [Finset.mem_union, Finset.mem_biUnion, Finset.mem_filter,
        List.mem_toFinset, List.mem_cons]
      constructor
      · rintro ((hy | hy) | ⟨b, ⟨hb, hbz⟩, hy⟩)
        · exact Or.inl hy
        · exact Or.inr ⟨l, ⟨Or.inl rfl, hl⟩, hy⟩
        · exact Or.inr ⟨b, ⟨Or.inr hb, hbz⟩, hy⟩
      · rintro (hy | ⟨b, ⟨hb | hb, hbz⟩, hy⟩)
        · exact Or.inl (Or.inl hy)
        · subst hb
          exact Or.inl (Or.inr hy)
        · exact Or.inr ⟨b, ⟨hb, hbz⟩, hy⟩

lemma satisfiedClauses_eq (a : List (List ℕ)) (lits : List ℤ) :
    satisfiedClauses a lits =
      (lits.toFinset.filter (fun l => ¬l = 0)).biUnion
        (fun l => (bucket a (dimacs2index l)).toFinset) := by
  unfold satisfiedClauses
  rw [satisfiedClauses_foldl]
  simp

lemma getD_congr_mem (pre : List (List ℤ)) (X Y : List ℤ) (post : List (List ℤ))
    (hXY : ∀ l : ℤ, l ∈ X ↔ l ∈ Y) (j : ℕ) (l : ℤ) :
    l ∈ (pre ++ X :: post).getD j [] ↔ l ∈ (pre ++ Y :: post).getD j [] := by
  induction pre generalizing j with
  | nil =>
    cases j with
    | zero => simpa using hXY l
    | succ j => simp
  | cons p pre ih =>
    cases j with
    | zero => simp
    | succ j => simpa using ih j

/-- C4 counterexample: duplicating literal 1 inside the single clause of
a one-variable formula changes the adjacency, since the bucket of
index(1) records the clause index once per occurrence. -/
theorem duplicate_literal_cex :
    buildAdjacency 1 [[1, 1]] ≠ buildAdjacency 1 [[1]] := by decide

/-- C4 amended: repeating a literal at any position within one
assignment line does not change the satisfied-clause set, and repeating
a literal at any position within any one clause leaves the membership
of every adjacency bucket unchanged (so every derived satisfied-clause
set is unchanged), although the bucket itself gains a duplicate entry. -/
theorem duplicate_literal_amended :
    (∀ (a : List (List ℕ)) (l : ℤ) (pre mid post : List ℤ),
      satisfiedClauses a (pre ++ l :: mid ++ l :: post) =
        satisfiedClauses a (pre ++ l :: mid ++ post)) ∧
    (∀ (n : ℕ) (pre post : List (List ℤ)) (l : ℤ)
        (cpre cmid cpost : List ℤ) (k x : ℕ),
      x ∈ bucket (buildAdjacency n
          (pre ++ (cpre ++ l :: cmid ++ l :: cpost) :: post)) k ↔
        x ∈ bucket (buildAdjacency n
          (pre ++ (cpre ++ l :: cmid ++ cpost) :: post)) k) := by
  constructor
  · intro a l pre mid post
    rw [satisfiedClauses_eq, satisfiedClauses_eq]
    have ht : (pre ++ l :: mid ++ l :: post).toFinset
        = (pre ++ l :: mid ++ post).toFinset := by
      ext y
      simp only [List.mem_toFinset, List.mem_append, List.mem_cons]
      tauto
    rw [ht]
  · intro n pre post l cpre cmid cpost k x
    rw [mem_bucket_buildAdjacency, mem_bucket_buildAdjacency]
    have hXY : ∀ y : ℤ, y ∈ (cpre ++ l :: cmid ++ l :: cpost) ↔
        y ∈ (cpre ++ l :: cmid ++ cpost) := by
      intro y
      simp only [List.mem_append, List.mem_cons]
      tauto
    have hlen : (pre ++ (cpre ++ l :: cmid ++ l :: cpost) :: post).length
        = (pre ++ (cpre ++ l :: cmid ++ cpost) :: post).length := by
      simp
    constructor
    · rintro ⟨j, hj, hx, hk, l', hl', hlz, hlk⟩
      exact ⟨j, hlen ▸ hj, hx, hk, l',
        (getD_congr_mem pre _ _ post hXY j l').mp hl', hlz, hlk⟩
    · rintro ⟨j, hj, hx, hk, l', hl', hlz, hlk⟩
      exact ⟨j, hlen ▸ hj, hx, hk, l',
        (getD_congr_mem pre _ _ post hXY j l').mpr hl', hlz, hlk⟩

lemma switch_directive_shape (l : ℤ) (i : ℕ) (d : Directive)
    (h : switch_directive l i = some d) :
    (∃ v, d = Directive.switchOn v (Overlay.onlyAt i)) ∨
    (∃ v, d = Directive.switchOff v (Overlay.onlyAt i)) := by
  unfold switch_directive at h
  split_ifs at h <;> cases h
  · exact Or.inl ⟨_, rfl⟩
  · exact Or.inr ⟨_, rfl⟩

/-- C1: the satisfied-clause set of a solution line equals the union of
the adjacency buckets of its nonzero literals; a light-on directive is
emitted for exactly the members of that set and a light-off directive
for exactly the clause indices of 1..m outside it. -/
theorem satisfaction_correctness (m : ℕ) (a : List (List ℕ)) (lits : List ℤ) (i : ℕ) :
    satisfiedClauses a lits =
      (lits.toFinset.filter (fun l => ¬l = 0)).biUnion
        (fun l => (bucket a (dimacs2index l)).toFinset) ∧
    (∀ c : ℕ, (∃ o, Directive.lightOn c o ∈ handle_solution_line m a lits i) ↔
        c ∈ satisfiedClauses a lits) ∧
    (∀ c : ℕ, (∃ o, Directive.lightOff c o ∈ handle_solution_line m a lits i) ↔
        (1 ≤ c ∧ c ≤ m ∧ c ∉ satisfiedClauses a lits)) := by
  refine ⟨satisfiedClauses_eq a lits, ?_, ?_⟩
  · intro c
    constructor
    · rintro ⟨o, ho⟩
      simp only [handle_solution_line, List.mem_append] at ho
      rcases ho with (ho | ho) | ho
      · obtain ⟨l, _, heq⟩ := List.mem_filterMap.mp ho
        split_ifs at heq
        rcases switch_directive_shape l i _ heq with ⟨v, hv⟩ | ⟨v, hv⟩ <;>
          exact Directive.noConfusion hv
      · obtain ⟨c2, hc2, heq⟩ := List.mem_map.mp ho
        cases heq
        exact (Finset.mem_sort _).mp hc2
      · obtain ⟨c2, hc2, heq⟩ := List.mem_map.mp ho
        exact Directive.noConfusion heq
    · intro hc
      refine ⟨Overlay.onlyAt i, ?_⟩
      simp only [handle_solution_line, List.mem_append]
      exact Or.inl (Or.inr (List.mem_map.mpr ⟨c, (Finset.mem_sort _).mpr hc, rfl⟩))
  · intro c
    constructor
    · rintro ⟨o, ho⟩
      simp only [handle_solution_line, List.mem_append] at ho
      rcases ho with (ho | ho) | ho
      · obtain ⟨l, _, heq⟩ := List.mem_filterMap.mp ho
        split_ifs at heq
        rcases switch_directive_shape l i _ heq with ⟨v, hv⟩ | ⟨v, hv⟩ <;>
          exact Directive.noConfusion hv
      · obtain ⟨c2, hc2, heq⟩ := List.mem_map.mp ho
        exact Directive.noConfusion heq
      · obtain ⟨c2, hc2, heq⟩ := List.mem_map.mp ho
        cases heq
        have := (Finset.mem_sort _).mp hc2
        rw [Finset.mem_sdiff, Finset.mem_Icc] at this
        exact ⟨this.1.1, this.1.2, this.2⟩
    · rintro ⟨h1, h2, h3⟩
      refine ⟨Overlay.onlyAt i, ?_⟩
      simp only [handle_solution_line, List.mem_append]
      refine Or.inr (List.mem_map.mpr ⟨c, (Finset.mem_sort _).mpr ?_, rfl⟩)
      rw [Finset.mem_sdiff, Finset.mem_Icc]
      exact ⟨⟨h1, h2⟩, h3⟩

lemma overlayOf_mem_handle_solution_line (m : ℕ) (a : List (List ℕ))
    (lits : List ℤ) (i : ℕ) (d : Directive)
    (hd : d ∈ handle_solution_line m a lits i) :
    overlayOf d = Overlay.onlyAt i := by
  simp only [handle_solution_line, List.mem_append] at hd
  rcases hd with (hd | hd) | hd
  · obtain ⟨l, _, heq⟩ := List.mem_filterMap.mp hd
    split_ifs at heq
    rcases switch_directive_shape l i d heq with ⟨v, hv⟩ | ⟨v, hv⟩ <;>
      subst hv <;> rfl
  · obtain ⟨c, _, heq⟩ := List.mem_map.mp hd
    subst heq
    rfl
  · obtain ⟨c, _, heq⟩ := List.mem_map.mp hd
    subst heq
    rfl

/-- C5 counterexample: rendering the assignment line with the single
literal 1 at layer 2 against the one-clause formula, the emitted switch
directive carries the pulse tag only-at-layer-2, and no directive of
that layer carries the persistent from-layer-2-onward tag. -/
theorem layer_overlay_cex :
    Directive.switchOn 1 (Overlay.onlyAt 2) ∈
      handle_solution_line 1 (buildAdjacency 1 [[1]]) [1] 2 ∧
    Directive.switchOn 1 (Overlay.fromOn 2) ∉
      handle_solution_line 1 (buildAdjacency 1 [[1]]) [1] 2 := by
  constructor
  · simp only [handle_solution_line, List.mem_append]
    refine Or.inl (Or.inl (List.mem_filterMap.mpr ⟨1, by simp, ?_⟩))
    rfl
  · intro hmem
    have h := overlayOf_mem_handle_solution_line 1 (buildAdjacency 1 [[1]]) [1] 2 _ hmem
    exact Overlay.noConfusion h

/-- C5 amended: every per-layer directive of assignment layer i (switch
state and light state alike) is tagged as visible only at layer i, a
pulse, not as visible from layer i onward. -/
theorem layer_overlay_amended (m : ℕ) (a : List (List ℕ)) (lits : List ℤ)
    (i : ℕ) (d : Directive) (hd : d ∈ handle_solution_line m a lits i) :
    overlayOf d = Overlay.onlyAt i :=
  overlayOf_mem_handle_solution_line m a lits i d hd

/-- C5 amended witness: the switch directive of the concrete layer 2. -/
theorem layer_overlay_amended_witness :
    overlayOf (Directive.switchOn 1 (Overlay.onlyAt 2)) = Overlay.onlyAt 2 :=
  layer_overlay_amended 1 (buildAdjacency 1 [[1]]) [1] 2
    (Directive.switchOn 1 (Overlay.onlyAt 2))
    (by
      simp only [handle_solution_line, List.mem_append]
      exact Or.inl (Or.inl (List.mem_filterMap.mpr ⟨1, by simp, rfl⟩)))

lemma range_aux (s n : ℕ) : List.range' s (n + 1) = s :: List.range' (s + 1) n := rfl

lemma wait_aux_eq (m : ℕ) (a : List (List ℕ)) (lines : List InputLine) :
    ∀ i : ℕ, wait_aux m a i lines =
      List.zipWith (fun ln j => (j, handle_solution_line m a ln.lits j))
        (lines.filter (fun ln => ln.text.startsWith "v "))
        (List.range' i (lines.filter (fun ln => ln.text.startsWith "v ")).length) := by
  induction lines with
  | nil => intro i; rfl
  | cons ln rest ih =>
    intro i
    by_cases h : ln.text.startsWith "v "
    · rw [show wait_aux m a i (ln :: rest)
          = (i, handle_solution_line m a ln.lits i) :: wait_aux m a (i + 1) rest by
            simp [wait_aux, h]]
      rw [List.filter_cons, if_pos (by simpa using h)]
      rw [List.length_cons, range_aux, List.zipWith_cons_cons, ih (i + 1)]
    · rw [show wait_aux m a i (ln :: rest) = wait_aux m a i rest by simp [wait_aux, h]]
      rw [List.filter_cons, if_neg (by simpa using h)]
      exact ih i

lemma wait_aux_map_fst (m : ℕ) (a : List (List ℕ)) (lines : List InputLine) (i : ℕ) :
    (wait_aux m a i lines).map Prod.fst =
      List.range' i (lines.filter (fun ln => ln.text.startsWith "v ")).length := by
  rw [wait_aux_eq]
  generalize lines.filter (fun ln => ln.text.startsWith "v ") = fl
  induction fl generalizing i with
  | nil => rfl
  | cons ln rest ih =>
    rw [List.length_cons, range_aux, List.zipWith_cons_cons, List.map_cons, ih (i + 1)]

/-- C7: the assignment layers are the marker lines in input order,
numbered 2, 3, 4, and so on with no gaps or repeats; non-marker lines
consume no ordinal, and an empty stream yields no layer. -/
theorem monotonic_layering (m : ℕ) (a : List (List ℕ)) (stdin : List InputLine) :
    (wait_for_solution m a stdin).map Prod.fst =
      List.range' 2 ((stdin.filter (fun ln => ln.text.startsWith "v ")).length) ∧
    wait_for_solution m a stdin =
      List.zipWith (fun ln j => (j, handle_solution_line m a ln.lits j))
        (stdin.filter (fun ln => ln.text.startsWith "v "))
        (List.range' 2 ((stdin.filter (fun ln => ln.text.startsWith "v ")).length)) ∧
    wait_for_solution m a ([] : List InputLine) = [] :=
  ⟨wait_aux_map_fst m a stdin 2, wait_aux_eq m a stdin 2, rfl⟩
